import Mathlib

/-!
Verification of the speedscope profile data model and the two view modules
`profile-table-view.tsx` and `inverted-caller-flamegraph-view.tsx`.

The profile core (`Profile`, `Frame`, the transformation operations and the
small utilities they use) is shallowly embedded below.  A `Profile` is
modelled by its list of weighted call-stack samples: each sample is a stack
(root first, leaf last) paired with a natural-number weight.  Every frame
level quantity (self weight, total weight, the frame enumeration order, the
grouped roots) is derived from the samples, exactly as a finalized profile
derives them.
-/

namespace Speedscope

/-- A code location: stable identity is the (name, file, line) triple,
mirroring the spec's "qualified name + source file/line" identity key. -/

structure Frame where
  name : String
  file : String
  line : Nat
deriving DecidableEq

/-- A profile is its ordered collection of weighted call-stack samples;
each stack lists frames root-first, leaf-last.  An empty stack is an idle
sample. -/

structure Profile where
  samples : List (List Frame × Nat)
deriving DecidableEq

/-- Sum of the weights of all non-idle (non-empty-stack) samples; the
percentage denominator used everywhere. -/

def getTotalNonIdleWeight (P : Profile) : Nat :=
  (P.samples.map (fun sw => if sw.1.isEmpty then 0 else sw.2)).sum

/-- Weight attributed directly to `f`: the summed weight of the samples
whose leaf (innermost frame) is `f`. -/

def getSelfWeight (P : Profile) (f : Frame) : Nat :=
  (P.samples.map (fun sw => if sw.1.getLast? = some f then sw.2 else 0)).sum

/-- Self weight plus all descendant weight: the summed weight of the
samples whose stack mentions `f` (counted once per sample even when `f`
recurs within the stack). -/

def getTotalWeight (P : Profile) (f : Frame) : Nat :=
  (P.samples.map (fun sw => if f ∈ sw.1 then sw.2 else 0)).sum

/-- Drop from `l` every element already in `seen` or already kept earlier:
keeps the first occurrence of each element.  Shared by the recursion
flattening of a stack and by the distinct-frame enumeration. -/

def removeSeen {α : Type} [DecidableEq α] (seen : List α) : List α → List α
  | [] => []
  | x :: rest =>
    if x ∈ seen then removeSeen seen rest
    else x :: removeSeen (x :: seen) rest

/-- All frames mentioned by the samples, in sample order with stacks
concatenated (before de-duplication). -/

def allStackFrames (P : Profile) : List Frame :=
  P.samples.foldr (fun sw acc => sw.1 ++ acc) []

/-- The sequence of distinct frames visited by `forEachFrame`: every
distinct frame of the profile exactly once, in first-occurrence order. -/

def forEachFrameList (P : Profile) : List Frame :=
  removeSeen [] (allStackFrames P)

/-- Modelled from the spec (the implementation lives in `src/lib/profile.ts`,
which is not part of the provided sources): recursion flattening of one
stack.  A frame that recurses directly or indirectly into itself along the
stack path is collapsed into its first (outermost) occurrence, so each
frame is kept only the first time it appears on the path. -/

def flattenStack (s : List Frame) : List Frame :=
  removeSeen [] s

/-- Modelled from the spec: `Profile.getProfileWithRecursionFlattened`
replays every sample with its recursion-flattened stack, weights
unchanged. -/

def getProfileWithRecursionFlattened (P : Profile) : Profile :=
  ⟨P.samples.map (fun sw => (flattenStack sw.1, sw.2))⟩

/-- Modelled from the spec (the implementation lives in
`src/lib/profile.ts`): the caller-inversion of one stack around `f`.
Walking the stack root-to-leaf with `callers` holding the frames above the
current position (immediate caller first), each occurrence of `f`
contributes one inverted stack `f :: callers`: the new root is `f`, its
child the immediate caller, then the caller's caller, outward to the
original root. -/

def invertStackAux (f : Frame) (callers : List Frame) :
    List Frame → List (List Frame)
  | [] => []
  | g :: rest =>
    (if g = f then [f :: callers] else []) ++ invertStackAux f (g :: callers) rest

/-- Modelled from the spec: `Profile.getInvertedProfileForCallersOf` builds
the profile whose samples are the caller-inverted stacks of every
occurrence of `f`, each carrying the weight of its enclosing sample. -/

def getInvertedProfileForCallersOf (P : Profile) (f : Frame) : Profile :=
  ⟨P.samples.foldr
    (fun sw acc => ((invertStackAux f [] sw.1).map (fun t => (t, sw.2))) ++ acc)
    []⟩

/-- Number of occurrences of `f` within the stack `s`. -/

def occurrenceCount (f : Frame) (s : List Frame) : Nat :=
  (s.filter (fun g => decide (g = f))).length

/-- Total weight of the root node for frame `g`: summed weight of the
samples whose stack starts at `g` (the root-level grouping merges all such
samples into one root node). -/

def rootTotalWeight (P : Profile) (g : Frame) : Nat :=
  (P.samples.map (fun sw => if sw.1.head? = some g then sw.2 else 0)).sum

/-- A deterministic hash of a string, folded over its characters. -/

def stringHash (s : String) : Nat :=
  s.data.foldl (fun h c => (h * 31 + c.toNat) % 1000003) 7

/-- A deterministic hash of a frame's stable identity key (its
name/file/line triple), independent of any traversal order or memory
identity. -/

def identityHash (f : Frame) : Nat :=
  (stringHash f.name * 31 + stringHash f.file) * 31 + f.line

/-- Modelled from the spec (the implementation lives in
`src/store/getters.ts`): the color bucket of one frame, a deterministic
hash of its stable identity key into the fixed-size palette. -/

def colorBucketOf (f : Frame) : Nat :=
  identityHash f % 255

/-- Modelled from the spec: `getFrameToColorBucket` maps every distinct
frame of the profile to its color bucket; frames not in the profile are
absent from the map. -/

def getFrameToColorBucket (P : Profile) (f : Frame) : Option Nat :=
  if f ∈ forEachFrameList P then some (colorBucketOf f) else none

/-- The distinct root frames of the grouped call tree, in first-occurrence
order: the heads of all non-idle samples, de-duplicated. -/

def rootFrames (P : Profile) : List Frame :=
  removeSeen [] (P.samples.filterMap (fun sw => sw.1.head?))

/-- JavaScript floating-point division as the table view performs it:
dividing by zero produces a non-finite value (`NaN` for `0 / 0`), modelled
as `none`; any other division produces the exact rational quotient. -/

def jsDiv (a b : ℚ) : Option ℚ :=
  if b = 0 then none else some (a / b)

/-- The total-percentage computed for one table row
(`profile-table-view.tsx:83`): `100.0 * totalWeight / getTotalNonIdleWeight`,
with no guard on the denominator. -/

def rowTotalPerc (P : Profile) (f : Frame) : Option ℚ :=
  jsDiv (100 * (getTotalWeight P f : ℚ)) ((getTotalNonIdleWeight P : ℚ))

/-- The self-percentage computed for one table row
(`profile-table-view.tsx:84`): `100.0 * selfWeight / getTotalNonIdleWeight`,
with no guard on the denominator. -/

def rowSelfPerc (P : Profile) (f : Frame) : Option ℚ :=
  jsDiv (100 * (getSelfWeight P f : ℚ)) ((getTotalNonIdleWeight P : ℚ))

/-- The sort fields of the frame table (`profile-table-view.tsx:16`). -/

inductive SortField where
  | SYMBOL_NAME
  | SELF
  | TOTAL
deriving DecidableEq

/-- The sort directions of the frame table (`profile-table-view.tsx:22`). -/

inductive SortDirection where
  | ASCENDING
  | DESCENDING
deriving DecidableEq

/-- A sort method: field plus direction (`profile-table-view.tsx:27`). -/

structure SortMethod where
  field : SortField
  direction : SortDirection
deriving DecidableEq

/-- Modelled from the spec (the implementation lives in `src/lib/utils.ts`):
`sortBy` reorders a list ascending by the given key, keeping the original
relative order of equal keys (the spec's design note asks for stable
insertion order on ties). -/

def sortByKey {α K : Type} [LinearOrder K] (key : α → K) (l : List α) :
    List α :=
  List.insertionSort (fun a b => key a ≤ key b) l

/-- The sorted frame list of the table view (`profile-table-view.tsx:169`):
collect every distinct frame, sort ascending by the active field's key,
then reverse when the direction is descending. -/

def frameList (P : Profile) (m : SortMethod) : List Frame :=
  let fl := forEachFrameList P
  let sorted :=
    match m.field with
    | SortField.SYMBOL_NAME => sortByKey (fun f => f.name.toLower) fl
    | SortField.SELF => sortByKey (fun f => getSelfWeight P f) fl
    | SortField.TOTAL => sortByKey (fun f => getTotalWeight P f) fl
  match m.direction with
  | SortDirection.DESCENDING => sorted.reverse
  | SortDirection.ASCENDING => sorted

/-- The sort-header click handler (`profile-table-view.tsx:135`): clicking
the already-active field toggles the direction; clicking another field
selects it with its default direction (ascending for the symbol name,
descending for the weight columns). -/

def onSortClick (sortMethod : SortMethod) (f : SortField) : SortMethod :=
  if sortMethod.field = f then
    { field := f,
      direction :=
        if sortMethod.direction = SortDirection.ASCENDING then
          SortDirection.DESCENDING
        else SortDirection.ASCENDING }
  else
    match f with
    | SortField.SYMBOL_NAME => { field := f, direction := SortDirection.ASCENDING }
    | SortField.SELF => { field := f, direction := SortDirection.DESCENDING }
    | SortField.TOTAL => { field := f, direction := SortDirection.DESCENDING }

/-- Modelled from the spec (the implementation lives in `src/lib/utils.ts`):
the input object of a memoized derivation, represented by the reference
identities of its fields.  Two calls see reference-equal fields exactly
when these lists coincide; a structurally-equal but newly constructed
field value carries a fresh reference identity. -/

structure MemoArgs where
  fields : List Nat
deriving DecidableEq

/-- Field-by-field shallow (reference) equality of two input objects. -/

def shallowEquals (a b : MemoArgs) : Bool :=
  decide (a.fields = b.fields)

/-- Modelled from the spec: one call of a function wrapped by
`memoizeByShallowEquality`.  The cache holds only the most recent
input/result pair; the call returns the new cache, the result, and how
many times the wrapped function was invoked (0 or 1). -/

def memoizedCall {R : Type} (f : MemoArgs → R) (last : Option (MemoArgs × R))
    (args : MemoArgs) : Option (MemoArgs × R) × R × Nat :=
  match last with
  | none => (some (args, f args), f args, 1)
  | some pr =>
    if shallowEquals pr.1 args then (some pr, pr.2, 0)
    else (some (args, f args), f args, 1)

/-- Two successive calls of a freshly wrapped function: both results and
the total number of invocations of the wrapped function. -/

def callTwice {R : Type} (f : MemoArgs → R) (x y : MemoArgs) :
    R × R × Nat :=
  let c1 := memoizedCall f none x
  let c2 := memoizedCall f c1.1 y
  (c1.2.1, c2.2.1, c1.2.2 + c2.2.2)

/-- The WebGL canvas handed to the flamegraph views, identified only by
reference. -/

structure GLCanvas where
  id : Nat
deriving DecidableEq

/-- The caller/callee sandwich state: it exists only once a frame is
selected. -/

structure CallerCallee where
  selectedFrame : Frame
deriving DecidableEq

/-- The guard sequence of `InvertedCallerFlamegraphView`
(`inverted-caller-flamegraph-view.tsx:63-66`): missing profile, canvas or
caller/callee state each throw; otherwise the render proceeds with exactly
the provided context. -/

def invertedCallerViewGuard (profile : Option Profile)
    (glCanvas : Option GLCanvas) (callerCallee : Option CallerCallee) :
    Except String (Profile × GLCanvas × CallerCallee) :=
  match profile with
  | none => Except.error "profile missing"
  | some p =>
    match glCanvas with
    | none => Except.error "glCanvas missing"
    | some c =>
      match callerCallee with
      | none => Except.error "callerCallee missing"
      | some cc => Except.ok (p, c, cc)

/-- The guard of `ProfileTableViewContainer`
(`profile-table-view.tsx:359`): a missing profile throws; otherwise the
provided profile is used unchanged. -/

def profileTableViewContainerGuard (profile : Option Profile) :
    Except String Profile :=
  match profile with
  | none => Except.error "profile missing"
  | some p => Except.ok p

/-- Modelled from the spec (the implementation lives in
`src/lib/utils.ts`): `noop` does nothing — as a selection callback it
dispatches no action. -/

def noop {α β : Type} : α → List β := fun _ => []

/-- The callback props handed to `FlamechartWrapper`, each returning the
list of actions it dispatches.  These model the setters produced by
`useFlamechartSetters` (declared outside the provided sources). -/

structure FlamechartSetters (Action : Type) where
  setSelectedNode : Option Nat → List Action
  setNodeHover : Option Nat → List Action
  setConfigSpaceViewportRect : Nat → List Action
  setLogicalSpaceViewportSize : Nat → List Action

/-- The prop construction of `InvertedCallerFlamegraphView`
(`inverted-caller-flamegraph-view.tsx:93-95`): the setters from
`useFlamechartSetters` are spread first, then `setSelectedNode` is
overridden with `noop`; the later spread of the flamegraph view state
carries no setter fields, so the override stands. -/

def invertedCallerWrapperSetters (Action : Type)
    (setters : FlamechartSetters Action) : FlamechartSetters Action :=
  { setters with setSelectedNode := noop }

/-- The frames of the worked examples. -/

def fMain : Frame := ⟨"main", "", 0⟩

def fA : Frame := ⟨"a", "", 0⟩

def fB : Frame := ⟨"b", "", 0⟩

def fC : Frame := ⟨"c", "", 0⟩

/-- The inversion scenario: `main → a → b` with weight 40 and
`main → c → b` with weight 60. -/
def scenarioProfile : Profile :=
  ⟨[([fMain, fA, fB], 40), ([fMain, fC, fB], 60)]⟩

/-- The sorting scenario: three frames whose self weights are 5, 20 and 1. -/
def selfScenarioProfile : Profile :=
  ⟨[([fA], 5), ([fB], 20), ([fC], 1)]⟩

/-- A profile whose only sample has weight zero: its frame set is
non-empty while its total non-idle weight is zero. -/
def zeroWeightProfile : Profile :=
  ⟨[([fMain], 0)]⟩

/-- A profile with zero samples. -/
def emptyProfile : Profile :=
  ⟨[]⟩

/-- Total weight of one immediate child of the root: summed weight of the
samples that start at `root` and continue at `child`. -/
def childTotalWeight (P : Profile) (root child : Frame) : Nat :=
  (P.samples.map (fun sw =>
    if sw.1.head? = some root ∧ (sw.1.drop 1).head? = some child then sw.2
    else 0)).sum

/-- The distinct immediate children of the root nodes, in first-occurrence
order. -/
def rootChildFrames (P : Profile) : List Frame :=
  removeSeen [] (P.samples.filterMap (fun sw => (sw.1.drop 1).head?))

theorem mem_removeSeen {α : Type} [DecidableEq α] (seen : List α) (l : List α)
    (x : α) : x ∈ removeSeen seen l ↔ x ∈ l ∧ x ∉ seen := by
  induction l generalizing seen with
  | nil => simp [removeSeen]
  | cons y rest ih =>
    by_cases hy : y ∈ seen
    · simp only [removeSeen, if_pos hy, ih, List.mem_cons]
      constructor
      · rintro ⟨hx, hns⟩; exact ⟨Or.inr hx, hns⟩
      · rintro ⟨hx | hx, hns⟩
        · exact absurd (hx ▸ hy) hns
        · exact ⟨hx, hns⟩
    · simp only [removeSeen, if_neg hy, List.mem_cons, ih]
      constructor
      · rintro (rfl | ⟨hx, hns⟩)
        · exact ⟨Or.inl rfl, hy⟩
        · refine ⟨Or.inr hx, ?_⟩
          intro hmem
          exact hns (Or.inr hmem)
      · rintro ⟨rfl | hx, hns⟩
        · exact Or.inl rfl
        · by_cases hxy : x = y
          · exact Or.inl hxy
          · refine Or.inr ⟨hx, ?_⟩
            rintro (h1 | h1)
            · exact hxy h1
            · exact hns h1

theorem removeSeen_nodup {α : Type} [DecidableEq α] (seen : List α)
    (l : List α) : (removeSeen seen l).Nodup := by
  induction l generalizing seen with
  | nil => simp [removeSeen]
  | cons y rest ih =>
    by_cases hy : y ∈ seen
    · simpa [removeSeen, if_pos hy] using ih seen
    · simp only [removeSeen, if_neg hy, List.nodup_cons]
      refine ⟨?_, ih (y :: seen)⟩
      intro hmem
      exact ((mem_removeSeen _ _ _).mp hmem).2 (List.mem_cons_self _ _)

theorem removeSeen_eq_self {α : Type} [DecidableEq α] (seen : List α)
    (l : List α) (hd : l.Nodup) (hdisj : ∀ x ∈ l, x ∉ seen) :
    removeSeen seen l = l := by
  induction l generalizing seen with
  | nil => simp [removeSeen]
  | cons y rest ih =>
    have hy : y ∉ seen := hdisj y (List.mem_cons_self _ _)
    rcases List.nodup_cons.mp hd with ⟨hyr, hrest⟩
    simp only [removeSeen, if_neg hy]
    congr 1
    refine ih (y :: seen) hrest ?_
    intro x hx
    intro hmem
    rcases List.mem_cons.mp hmem with h1 | h1
    · exact hyr (h1 ▸ hx)
    · exact hdisj x (List.mem_cons_of_mem _ hx) h1

theorem removeSeen_idem {α : Type} [DecidableEq α] (l : List α) :
    removeSeen [] (removeSeen [] l) = removeSeen [] l := by
  refine removeSeen_eq_self [] _ (removeSeen_nodup [] l) ?_
  intro x _ hmem
  simp at hmem

theorem mem_allStackFrames (P : Profile) (x : Frame) :
    x ∈ allStackFrames P ↔ ∃ sw ∈ P.samples, x ∈ sw.1 := by
  obtain ⟨samples⟩ := P
  induction samples with
  | nil => simp [allStackFrames]
  | cons sw rest ih =>
    simp only [allStackFrames, List.foldr_cons, List.mem_append, List.mem_cons]
    constructor
    · rintro (hx | hx)
      · exact ⟨sw, Or.inl rfl, hx⟩
      · obtain ⟨t, ht, hxt⟩ := (ih).mp hx
        exact ⟨t, Or.inr ht, hxt⟩
    · rintro ⟨t, rfl | ht, hxt⟩
      · exact Or.inl hxt
      · exact Or.inr ((ih).mpr ⟨t, ht, hxt⟩)

theorem mem_forEachFrameList (P : Profile) (x : Frame) :
    x ∈ forEachFrameList P ↔ ∃ sw ∈ P.samples, x ∈ sw.1 := by
  unfold forEachFrameList
  rw [mem_removeSeen, mem_allStackFrames]
  simp

theorem flattenStack_idem (s : List Frame) :
    flattenStack (flattenStack s) = flattenStack s :=
  removeSeen_idem s

theorem mem_flattenStack (s : List Frame) (x : Frame) :
    x ∈ flattenStack s ↔ x ∈ s := by
  unfold flattenStack
  rw [mem_removeSeen]
  simp

theorem getProfileWithRecursionFlattened_idem (P : Profile) :
    getProfileWithRecursionFlattened (getProfileWithRecursionFlattened P)
      = getProfileWithRecursionFlattened P := by
  unfold getProfileWithRecursionFlattened
  simp only [List.map_map, Profile.mk.injEq]
  refine List.map_congr_left ?_
  intro sw _
  simp [Function.comp, flattenStack_idem]

theorem mem_forEachFrameList_flattened (P : Profile) (x : Frame) :
    x ∈ forEachFrameList (getProfileWithRecursionFlattened P)
      ↔ x ∈ forEachFrameList P := by
  rw [mem_forEachFrameList, mem_forEachFrameList]
  constructor
  · rintro ⟨sw, hsw, hx⟩
    simp only [getProfileWithRecursionFlattened, List.mem_map] at hsw
    obtain ⟨tw, htw, rfl⟩ := hsw
    exact ⟨tw, htw, (mem_flattenStack _ _).mp hx⟩
  · rintro ⟨sw, hsw, hx⟩
    refine ⟨(flattenStack sw.1, sw.2), ?_, (mem_flattenStack _ _).mpr hx⟩
    simp only [getProfileWithRecursionFlattened, List.mem_map]
    exact ⟨sw, hsw, rfl⟩

theorem occurrenceCount_cons (f g : Frame) (rest : List Frame) :
    occurrenceCount f (g :: rest)
      = (if g = f then 1 else 0) + occurrenceCount f rest := by
  by_cases hg : g = f
  · simp only [occurrenceCount, List.filter_cons, hg]
    simp [Nat.add_comm]
  · simp [occurrenceCount, List.filter_cons, hg]

theorem invertStackAux_length (f : Frame) (callers s : List Frame) :
    (invertStackAux f callers s).length = occurrenceCount f s := by
  induction s generalizing callers with
  | nil => simp [invertStackAux, occurrenceCount]
  | cons g rest ih =>
    rw [occurrenceCount_cons]
    by_cases hg : g = f
    · simp [invertStackAux, hg, ih, Nat.add_comm]
    · simp [invertStackAux, hg, ih]

theorem invertStackAux_head (f : Frame) (callers s : List Frame) :
    ∀ t ∈ invertStackAux f callers s, t.head? = some f := by
  induction s generalizing callers with
  | nil => simp [invertStackAux]
  | cons g rest ih =>
    intro t ht
    by_cases hg : g = f
    · simp only [invertStackAux, if_pos hg, List.singleton_append,
        List.mem_cons] at ht
      rcases ht with rfl | ht
      · rfl
      · exact ih (g :: callers) t ht
    · simp only [invertStackAux, if_neg hg, List.nil_append] at ht
      exact ih (g :: callers) t ht

theorem inverted_samples_head (P : Profile) (f : Frame) :
    ∀ sw ∈ (getInvertedProfileForCallersOf P f).samples, sw.1.head? = some f := by
  obtain ⟨samples⟩ := P
  induction samples with
  | nil => simp [getInvertedProfileForCallersOf]
  | cons sw rest ih =>
    intro tw htw
    simp only [getInvertedProfileForCallersOf, List.foldr_cons,
      List.mem_append, List.mem_map] at htw
    rcases htw with ⟨t, ht, rfl⟩ | htw
    · exact invertStackAux_head f [] sw.1 t ht
    · exact ih tw htw

theorem sum_map_pair_head (f : Frame) (w : Nat) (L : List (List Frame))
    (hall : ∀ t ∈ L, t.head? = some f) :
    ((L.map (fun t => (t, w))).map
        (fun tw => if tw.1.head? = some f then tw.2 else 0)).sum
      = L.length * w := by
  induction L with
  | nil => simp
  | cons t ts ih =>
    simp only [List.map_cons, List.sum_cons, List.length_cons]
    rw [if_pos (hall t (List.mem_cons_self t ts))]
    rw [ih (fun u hu => hall u (List.mem_cons_of_mem _ hu))]
    ring

theorem rootTotalWeight_inverted (P : Profile) (f : Frame) :
    rootTotalWeight (getInvertedProfileForCallersOf P f) f
      = (P.samples.map (fun sw => occurrenceCount f sw.1 * sw.2)).sum := by
  obtain ⟨samples⟩ := P
  induction samples with
  | nil => simp [getInvertedProfileForCallersOf, rootTotalWeight]
  | cons sw rest ih =>
    simp only [rootTotalWeight, getInvertedProfileForCallersOf,
      List.foldr_cons, List.map_append, List.sum_append, List.map_cons,
      List.sum_cons] at ih ⊢
    rw [sum_map_pair_head f sw.2 _ (invertStackAux_head f [] sw.1),
      invertStackAux_length, ih]

theorem sum_map_add {α : Type} (l : List α) (f g : α → Nat) :
    (l.map (fun x => f x + g x)).sum = (l.map f).sum + (l.map g).sum := by
  induction l with
  | nil => simp
  | cons x xs ih =>
    simp only [List.map_cons, List.sum_cons, ih]
    ring

theorem sum_map_eq_zero {α : Type} (l : List α) (f : α → Nat)
    (h : ∀ x ∈ l, f x = 0) : (l.map f).sum = 0 := by
  induction l with
  | nil => simp
  | cons x xs ih =>
    simp only [List.map_cons, List.sum_cons, h x (List.mem_cons_self x xs)]
    simpa using ih (fun y hy => h y (List.mem_cons_of_mem _ hy))

theorem sum_map_ite_eq (G : List Frame) (hG : G.Nodup) (h : Frame)
    (hmem : h ∈ G) (w : Nat) :
    (G.map (fun g => if h = g then w else 0)).sum = w := by
  induction G with
  | nil => cases hmem
  | cons g G ih =>
    rcases List.nodup_cons.mp hG with ⟨hg, hG2⟩
    simp only [List.map_cons, List.sum_cons]
    rcases List.mem_cons.mp hmem with rfl | hmemG
    · rw [if_pos rfl]
      have hz : (G.map (fun g2 => if h = g2 then w else 0)).sum = 0 := by
        refine sum_map_eq_zero G _ ?_
        intro g2 hg2
        rw [if_neg]
        intro e
        exact hg (e ▸ hg2)
      rw [hz]
      omega
    · have hne : ¬h = g := by
        intro e
        exact hg (e ▸ hmemG)
      rw [if_neg hne, ih hG2 hmemG]
      omega

theorem mem_of_getLastEq {l : List Frame} {f : Frame}
    (h : l.getLast? = some f) : f ∈ l := by
  obtain ⟨hne, rfl⟩ := List.mem_getLast?_eq_getLast (by simpa using h)
  exact List.getLast_mem hne

theorem sum_rootTotal_aux (G : List Frame) (hG : G.Nodup)
    (samples : List (List Frame × Nat))
    (hcov : ∀ sw ∈ samples, ∀ h, sw.1.head? = some h → h ∈ G) :
    (G.map (fun g => (samples.map
        (fun sw => if sw.1.head? = some g then sw.2 else 0)).sum)).sum
      = (samples.map (fun sw => if sw.1.isEmpty then 0 else sw.2)).sum := by
  induction samples with
  | nil => simp
  | cons sw rest ih =>
    simp only [List.map_cons, List.sum_cons]
    rw [sum_map_add G
      (fun g => if sw.1.head? = some g then sw.2 else 0)
      (fun g => (rest.map
        (fun tw => if tw.1.head? = some g then tw.2 else 0)).sum)]
    rw [ih (fun tw htw => hcov tw (List.mem_cons_of_mem _ htw))]
    congr 1
    cases hh : sw.1.head? with
    | none =>
      have hempty : sw.1.isEmpty = true := by
        cases h1 : sw.1 with
        | nil => rfl
        | cons a l => rw [h1] at hh; simp at hh
      rw [if_pos hempty, sum_map_eq_zero]
      intro g _
      rw [if_neg]
      simp [hh]
    | some h =>
      have hne : sw.1.isEmpty = false := by
        cases h1 : sw.1 with
        | nil => rw [h1] at hh; simp at hh
        | cons a l => rfl
      rw [if_neg (by simp [hne])]
      have hmem : h ∈ G := hcov sw (List.mem_cons_self _ _) h hh
      have hcong : (G.map (fun g =>
            if (some h : Option Frame) = some g then sw.2 else 0))
          = (G.map (fun g => if h = g then sw.2 else 0)) := by
        refine List.map_congr_left ?_
        intro g _
        simp
      rw [hcong, sum_map_ite_eq G hG h hmem]

/-- The sum, over the distinct root frames of the grouped call tree, of the
root-level total weights equals the total non-idle weight. -/

theorem sum_rootTotalWeight (P : Profile) :
    ((rootFrames P).map (rootTotalWeight P)).sum = getTotalNonIdleWeight P := by
  unfold rootTotalWeight getTotalNonIdleWeight
  refine sum_rootTotal_aux (rootFrames P) (removeSeen_nodup [] _) P.samples ?_
  intro sw hsw h hh
  unfold rootFrames
  rw [mem_removeSeen]
  refine ⟨?_, by simp⟩
  rw [List.mem_filterMap]
  exact ⟨sw, hsw, hh⟩

theorem sortByKey_pairwise {α K : Type} [LinearOrder K] (key : α → K)
    (l : List α) : (sortByKey key l).Pairwise (fun a b => key a ≤ key b) := by
  haveI : IsTotal α (fun a b => key a ≤ key b) :=
    ⟨fun a b => le_total (key a) (key b)⟩
  haveI : IsTrans α (fun a b => key a ≤ key b) :=
    ⟨fun a b c hab hbc => le_trans hab hbc⟩
  exact List.sorted_insertionSort _ l

theorem selfWeight_le_totalWeight (P : Profile) (f : Frame) :
    getSelfWeight P f ≤ getTotalWeight P f := by
  unfold getSelfWeight getTotalWeight
  refine List.sum_le_sum ?_
  intro sw _
  by_cases hl : sw.1.getLast? = some f
  · rw [if_pos hl, if_pos (mem_of_getLastEq hl)]
  · rw [if_neg hl]
    exact Nat.zero_le _

/-- C1: the spec requires the table's percentage computation to guard the
division by `getTotalNonIdleWeight()` and render 0% on a zero-weight
profile; the code at `profile-table-view.tsx:83-84` divides unguarded, so
on a profile whose total non-idle weight is zero the computed percentage
is the non-finite `0 / 0` (NaN, modelled `none`) rather than 0 — for a
frame the table actually lists as well as for any frame of a zero-sample
profile. -/
theorem rowPerc_NaN_on_zero_denominator :
    getTotalNonIdleWeight zeroWeightProfile = 0 ∧
    fMain ∈ forEachFrameList zeroWeightProfile ∧
    rowTotalPerc zeroWeightProfile fMain = none ∧
    rowSelfPerc zeroWeightProfile fMain = none ∧
    rowTotalPerc emptyProfile fMain = none ∧
    rowSelfPerc emptyProfile fMain = none :=
  ⟨rfl, by decide, by decide, by decide, by decide, by decide⟩

/-- C2: a function wrapped by `memoizeByShallowEquality`, called twice in
succession: when the second input object's fields are pairwise
reference-equal to the first's, the wrapped function runs exactly once and
the second call returns the first call's result; when some field is not
reference-equal (a structurally-equal but newly constructed input), the
wrapped function runs again. -/
theorem memoizeByShallowEquality_spec {R : Type} (f : MemoArgs → R)
    (x y : MemoArgs) :
    (x.fields = y.fields → callTwice f x y = (f x, f x, 1)) ∧
    (x.fields ≠ y.fields → callTwice f x y = (f x, f y, 2)) := by
  constructor
  · intro h
    have hxy : x = y := by cases x; cases y; simpa using h
    subst hxy
    simp [callTwice, memoizedCall, shallowEquals]
  · intro h
    simp [callTwice, memoizedCall, shallowEquals, h]

/-- Witness for C2 at concrete inputs: field-identical inputs `[1, 2]`
invoke the function once and reuse the result; a fresh field identity
(`[1, 7]`) invokes it a second time. -/
theorem memoizeByShallowEquality_spec_witness :
    ((⟨[1, 2]⟩ : MemoArgs).fields = (⟨[1, 2]⟩ : MemoArgs).fields ∧
      callTwice (fun a => a.fields.sum) ⟨[1, 2]⟩ ⟨[1, 2]⟩ = (3, 3, 1)) ∧
    ((⟨[1, 2]⟩ : MemoArgs).fields ≠ (⟨[1, 7]⟩ : MemoArgs).fields ∧
      callTwice (fun a => a.fields.sum) ⟨[1, 2]⟩ ⟨[1, 7]⟩ = (3, 8, 2)) := by
  constructor
  · refine ⟨rfl, ?_⟩
    have h :=
      (memoizeByShallowEquality_spec (fun a : MemoArgs => a.fields.sum)
        ⟨[1, 2]⟩ ⟨[1, 2]⟩).1 rfl
    simpa using h
  · refine ⟨by decide, ?_⟩
    have h :=
      (memoizeByShallowEquality_spec (fun a : MemoArgs => a.fields.sum)
        ⟨[1, 2]⟩ ⟨[1, 7]⟩).2 (by decide)
    simpa using h

/-- C3: inverting a profile around an occurring frame `f` yields a profile
all of whose stacks are rooted at `f`, whose root total weight is the sum,
over every occurrence of `f` in the original stacks, of the enclosing
sample's weight; on the scenario `main → a → b (40)`, `main → c → b (60)`
the root `b` weighs 100 and its two children are `a` (40) and `c` (60). -/
theorem getInvertedProfileForCallersOf_spec (P : Profile) (f : Frame)
    (hf : f ∈ forEachFrameList P) :
    (∀ sw ∈ (getInvertedProfileForCallersOf P f).samples,
      sw.1.head? = some f) ∧
    rootTotalWeight (getInvertedProfileForCallersOf P f) f
      = (P.samples.map (fun sw => occurrenceCount f sw.1 * sw.2)).sum ∧
    (getInvertedProfileForCallersOf scenarioProfile fB).samples
      = [([fB, fA, fMain], 40), ([fB, fC, fMain], 60)] ∧
    rootTotalWeight (getInvertedProfileForCallersOf scenarioProfile fB) fB
      = 100 ∧
    rootChildFrames (getInvertedProfileForCallersOf scenarioProfile fB)
      = [fA, fC] ∧
    childTotalWeight (getInvertedProfileForCallersOf scenarioProfile fB)
      fB fA = 40 ∧
    childTotalWeight (getInvertedProfileForCallersOf scenarioProfile fB)
      fB fC = 60 :=
  ⟨inverted_samples_head P f, rootTotalWeight_inverted P f,
    by decide, by decide, by decide, by decide, by decide⟩

/-- Witness for C3 at the scenario profile and frame `b`. -/
theorem getInvertedProfileForCallersOf_spec_witness :
    fB ∈ forEachFrameList scenarioProfile ∧
    rootTotalWeight (getInvertedProfileForCallersOf scenarioProfile fB) fB
      = (scenarioProfile.samples.map
          (fun sw => occurrenceCount fB sw.1 * sw.2)).sum :=
  ⟨by decide,
    (getInvertedProfileForCallersOf_spec scenarioProfile fB (by decide)).2.1⟩

/-- C4: recursion flattening is idempotent — applying
`getProfileWithRecursionFlattened` twice leaves every frame's total weight
and self weight identical to applying it once. -/
theorem getProfileWithRecursionFlattened_idempotent (P : Profile)
    (f : Frame) :
    getTotalWeight
        (getProfileWithRecursionFlattened (getProfileWithRecursionFlattened P)) f
      = getTotalWeight (getProfileWithRecursionFlattened P) f ∧
    getSelfWeight
        (getProfileWithRecursionFlattened (getProfileWithRecursionFlattened P)) f
      = getSelfWeight (getProfileWithRecursionFlattened P) f := by
  rw [getProfileWithRecursionFlattened_idem]
  exact ⟨rfl, rfl⟩

/-- C5: the frame-to-color-bucket assignment agrees on `P` and on its
recursion-flattened transform for every frame of `P`, because the bucket
is a deterministic function of the frame's stable identity key and
flattening preserves the frame set. -/
theorem getFrameToColorBucket_stable (P : Profile) (f : Frame)
    (hf : f ∈ forEachFrameList P) :
    getFrameToColorBucket P f
      = getFrameToColorBucket (getProfileWithRecursionFlattened P) f ∧
    getFrameToColorBucket P f = some (colorBucketOf f) := by
  have hmem : f ∈ forEachFrameList (getProfileWithRecursionFlattened P) :=
    (mem_forEachFrameList_flattened P f).mpr hf
  unfold getFrameToColorBucket
  rw [if_pos hf, if_pos hmem]
  exact ⟨rfl, rfl⟩

/-- Witness for C5 at the scenario profile and frame `a`. -/
theorem getFrameToColorBucket_stable_witness :
    fA ∈ forEachFrameList scenarioProfile ∧
    getFrameToColorBucket scenarioProfile fA
      = getFrameToColorBucket
          (getProfileWithRecursionFlattened scenarioProfile) fA :=
  ⟨by decide, (getFrameToColorBucket_stable scenarioProfile fA (by decide)).1⟩

/-- C6: in every finalized profile each frame's self weight is at most its
total weight, and the root-level total weights enumerated by
`forEachCallGrouped` sum to the profile's total non-idle weight. -/
theorem profile_weight_invariants (P : Profile) (f : Frame) :
    getSelfWeight P f ≤ getTotalWeight P f ∧
    ((rootFrames P).map (rootTotalWeight P)).sum = getTotalNonIdleWeight P :=
  ⟨selfWeight_le_totalWeight P f, sum_rootTotalWeight P⟩

/-- C7: sorting the table by self weight descending lists the frames in
non-increasing self-weight order, clicking the already-active self column
toggles the direction and yields exactly the reversed list, and on frames
with self weights [5, 20, 1] the descending order is [20, 5, 1] with its
toggle [1, 5, 20]. -/
theorem frameTable_sort_self_descending :
    (∀ P : Profile,
      (frameList P ⟨SortField.SELF, SortDirection.DESCENDING⟩).Pairwise
        (fun a b => getSelfWeight P b ≤ getSelfWeight P a) ∧
      frameList P
          (onSortClick ⟨SortField.SELF, SortDirection.DESCENDING⟩
            SortField.SELF)
        = (frameList P ⟨SortField.SELF, SortDirection.DESCENDING⟩).reverse) ∧
    frameList selfScenarioProfile ⟨SortField.SELF, SortDirection.DESCENDING⟩
      = [fB, fA, fC] ∧
    frameList selfScenarioProfile
        (onSortClick ⟨SortField.SELF, SortDirection.DESCENDING⟩
          SortField.SELF)
      = [fC, fA, fB] := by
  refine ⟨?_, by decide, by decide⟩
  intro P
  constructor
  · show (List.reverse _).Pairwise _
    rw [List.pairwise_reverse]
    exact sortByKey_pairwise (fun f => getSelfWeight P f) (forEachFrameList P)
  · show sortByKey (fun f => getSelfWeight P f) (forEachFrameList P)
        = (List.reverse _).reverse
    rw [List.reverse_reverse]

/-- C9: for every profile and sort field, the list the table computes with
direction descending is exactly the reversal of the list it computes with
direction ascending — descending is implemented as the ascending sort
followed by a reversal, so this holds including ties. -/
theorem frameList_descending_reverse (P : Profile) (f : SortField) :
    frameList P ⟨f, SortDirection.DESCENDING⟩
      = (frameList P ⟨f, SortDirection.ASCENDING⟩).reverse := by
  cases f <;> rfl

/-- C8: rendering without required context fails hard: a missing profile,
canvas or caller/callee selection makes the inverted-callers view throw,
a missing profile makes the table container throw, and a successful render
uses exactly the provided profile, canvas and selection — no default is
substituted. -/
theorem missing_context_fails_hard (pr : Option Profile)
    (gl : Option GLCanvas) (cc : Option CallerCallee) :
    (pr = none →
      invertedCallerViewGuard pr gl cc = Except.error "profile missing") ∧
    (∀ p, pr = some p → gl = none →
      invertedCallerViewGuard pr gl cc = Except.error "glCanvas missing") ∧
    (∀ p c, pr = some p → gl = some c → cc = none →
      invertedCallerViewGuard pr gl cc
        = Except.error "callerCallee missing") ∧
    (∀ p c k, invertedCallerViewGuard pr gl cc = Except.ok (p, c, k) →
      pr = some p ∧ gl = some c ∧ cc = some k) ∧
    (pr = none →
      profileTableViewContainerGuard pr = Except.error "profile missing") ∧
    (∀ p, pr = some p → profileTableViewContainerGuard pr = Except.ok p) := by
  cases pr <;> cases gl <;> cases cc <;>
    simp [invertedCallerViewGuard, profileTableViewContainerGuard]

/-- Witness for C8: a missing profile throws in both views; the complete
context renders with exactly the provided pieces. -/
theorem missing_context_fails_hard_witness :
    invertedCallerViewGuard none (some ⟨0⟩) (some ⟨fB⟩)
      = Except.error "profile missing" ∧
    profileTableViewContainerGuard (some scenarioProfile)
      = Except.ok scenarioProfile :=
  ⟨(missing_context_fails_hard none (some ⟨0⟩) (some ⟨fB⟩)).1 rfl,
    (missing_context_fails_hard (some scenarioProfile) none
      none).2.2.2.2.2 scenarioProfile rfl⟩

/-- C10: the inverted-callers view overrides the node-selection callback
with `noop`, so selecting a node there dispatches nothing and changes no
selection state, while every other flamechart setter is passed through
unchanged. -/
theorem invertedCaller_setSelectedNode_noop (Action : Type)
    (setters : FlamechartSetters Action) :
    (invertedCallerWrapperSetters Action setters).setSelectedNode = noop ∧
    (∀ n, (invertedCallerWrapperSetters Action setters).setSelectedNode n
      = []) ∧
    (invertedCallerWrapperSetters Action setters).setNodeHover
      = setters.setNodeHover ∧
    (invertedCallerWrapperSetters Action setters).setConfigSpaceViewportRect
      = setters.setConfigSpaceViewportRect ∧
    (invertedCallerWrapperSetters Action setters).setLogicalSpaceViewportSize
      = setters.setLogicalSpaceViewportSize :=
  ⟨rfl, fun _ => rfl, rfl, rfl, rfl⟩

end Speedscope
